import Mathlib

/-!
Shallow embedding of the toy in-memory table engine (`src/main.rs`).

Modelling conventions:
* Rust `HashMap<String, _>` becomes an association list `List (String × _)`
  with first-match lookup and replace-or-append insertion.  The source never
  iterates a `HashMap` (all iteration is over `Vec`s / the `order` list), so
  the association-list representation is observationally faithful.
* Rust `i32` becomes `Int`.  The one place where 32-bit behaviour matters is
  the negation inside `i32_len`, which overflows (and in a debug build
  aborts) at `-2^31`; this is modelled by returning `none` there.
* Rust `String`/`&str` text is modelled as Lean `String` (for row payloads)
  and `List Char` (for the LIKE matcher, where the source walks bytes); byte
  positions are identified with character positions, i.e. text is treated as
  ASCII.
* Every operation that can hit a Rust abort (`panic`, `HashMap` indexing on
  a missing key, `Option::unwrap`) returns an `Option`, with `none` for the
  abort.
-/

set_option autoImplicit false

universe u

/-- First-match lookup in an association list, mirroring `HashMap::get`. -/
def mapGet {α : Type u} (k : String) : List (String × α) → Option α
  | [] => none
  | p :: rest => if p.1 = k then some p.2 else mapGet k rest

/-- Replace-or-append insertion, mirroring `HashMap::insert`. -/
def mapInsert {α : Type u} (k : String) (v : α) : List (String × α) → List (String × α)
  | [] => [(k, v)]
  | p :: rest => if p.1 = k then (k, v) :: rest else p :: mapInsert k v rest

/-- The source's `enum Type`: a nullable 32-bit integer or nullable text.
(`Type` is reserved in Lean, hence the name `Ty`.) -/
inductive Ty : Type where
  | int : Option Int → Ty
  | text : Option String → Ty
  deriving DecidableEq

/-- The source's `enum LikeType`: tokens of a LIKE pattern. -/
inductive LikeType : Type where
  | underscore : LikeType
  | percent : LikeType
  | str : List Char → LikeType
  deriving DecidableEq

/-- A row: `HashMap<String, Type>` in the source. -/
abbrev Row : Type := List (String × Ty)

/-- The source's `struct Table`. -/
structure Table : Type where
  name : String
  order : List String
  column : List (String × Ty)
  max_lens : List (String × Nat)
  data : List Row
  deriving DecidableEq

/-- Number of iterations of the `while 0 < i { i /= 10; len += 1 }` loop of
`i32_len`, i.e. the decimal digit count with `natLen 0 = 0`. -/
def natLen (n : Nat) : Nat :=
  if h : n = 0 then 0 else 1 + natLen (n / 10)
  termination_by n
  decreasing_by exact Nat.div_lt_self (Nat.pos_of_ne_zero h) (by norm_num)

/-- The source's `fn i32_len`.  `i = -i` overflows at `-2^31` (a debug-build
abort), modelled as `none`. -/
def i32_len (i : Int) : Option Nat :=
  if i < 0 then
    if i = -(2 ^ 31) then none else some (1 + natLen (-i).toNat)
  else
    some (natLen i.toNat)

/-- The width computation inlined in `Table::insert` (`match &d.1 { ... }`). -/
def valLen : Ty → Option Nat
  | Ty.int (some i) => i32_len i
  | Ty.text (some t) => some t.length
  | _ => some 4

/-- The constructor loop of `Table::new`, accumulating `(order, column, max_lens)`. -/
def newLoop (acc : List String × List (String × Ty) × List (String × Nat)) :
    List (String × Ty) → List String × List (String × Ty) × List (String × Nat)
  | [] => acc
  | c :: rest =>
      newLoop (acc.1 ++ [c.1], mapInsert c.1 c.2 acc.2.1, mapInsert c.1 c.1.length acc.2.2) rest

/-- The source's `Table::new`. -/
def Table.new (name : String) (col : List (String × Ty)) : Table :=
  let a := newLoop ([], [], []) col
  { name := name, order := a.1, column := a.2.1, max_lens := a.2.2, data := [] }

/-- The loop of `Table::insert`: walks the given entries, validating against
`column`, rejecting duplicates, updating `max_lens`, building the row.
Aborts (`none`) on an unknown column, a duplicate column, the `i32_len`
overflow, or a `max_lens` index miss. -/
def insertLoop (column : List (String × Ty)) :
    List (String × Nat) → Row → List (String × Ty) → Option (List (String × Nat) × Row)
  | m, h, [] => some (m, h)
  | m, h, d :: rest =>
      if (mapGet d.1 column).isSome then
        if (mapGet d.1 h).isSome then none
        else
          match valLen d.2, mapGet d.1 m with
          | some len, some cur =>
              insertLoop column (if cur < len then mapInsert d.1 len m else m)
                (mapInsert d.1 d.2 h) rest
          | _, _ => none
      else none

/-- The source's `Table::insert` (mutation modelled as returning the new table). -/
def Table.insert (self : Table) (data : List (String × Ty)) : Option Table :=
  (insertLoop self.column self.max_lens [] data).map
    (fun p => { self with max_lens := p.1, data := self.data ++ [p.2] })

/-- The column-collection loop of `Table::select`. -/
def selectLoop (source : List (String × Ty)) :
    List String → List (String × Ty) → List (String × Ty)
  | [], acc => acc
  | c :: rest, acc =>
      match mapGet c source with
      | some v => selectLoop source rest (mapInsert c v acc)
      | none => selectLoop source rest acc

/-- The source's `Table::select`.  Note that `order` is set to the full
requested list, while `column` keeps only the names present in the source
schema. -/
def Table.select (self : Table) (cols : List String) : Table :=
  { self with column := selectLoop self.column cols [], order := cols }

/-- The row loop of `Table::less_than`.  `d[col]` indexes the row map and
aborts when `col` is absent from a row. -/
def ltRows (col : String) (num : Int) : List Row → Option (List Row)
  | [] => some []
  | d :: rest =>
      match mapGet col d with
      | some (Ty.int (some n)) =>
          (ltRows col num rest).map (fun rs => if n < num then d :: rs else rs)
      | some _ => ltRows col num rest
      | none => none

/-- The source's `Table::less_than`. -/
def Table.less_than (self : Table) (col : String) (num : Int) : Option Table :=
  (ltRows col num self.data).map (fun rs => { self with data := rs })

/-- One maximal literal run: the inner `while` of `tokenize`.  Returns the
collected run and the unconsumed remainder. -/
def lexStr : List Char → List Char × List Char
  | [] => ([], [])
  | c :: rest =>
      if c = '%' ∨ c = '_' then ([], c :: rest)
      else
        let p := lexStr rest
        (c :: p.1, p.2)

/-- The source's `tokenize` (nested in `Table::like`). -/
def tokenize : List Char → List LikeType
  | [] => []
  | c :: rest =>
      if c = '_' then LikeType.underscore :: tokenize rest
      else if c = '%' then LikeType.percent :: tokenize rest
      else
        let p := lexStr rest
        LikeType.str (c :: p.1) :: tokenize p.2
  termination_by l => l.length
  decreasing_by
    · simp
    · simp
    · have hlen : ∀ l : List Char, (lexStr l).2.length ≤ l.length := by
        intro l
        induction l with
        | nil => simp [lexStr]
        | cons a as ih =>
            by_cases ha : a = '%' ∨ a = '_'
            · simp [lexStr, ha]
            · simp only [lexStr, if_neg ha]
              exact Nat.le_succ_of_le ih
      exact Nat.lt_succ_of_le (hlen rest)

/-- The source's free function `like`: the backtracking matcher over
remaining tokens × remaining text.  (Named `likeMatch` to avoid clashing
with `Table.like`.) -/
def likeMatch : List LikeType → List Char → Bool
  | [], [] => true
  | _ :: _, [] => false
  | [], _ :: _ => false
  | LikeType.underscore :: ps, _ :: ts => likeMatch ps ts
  | LikeType.percent :: ps, c :: ts =>
      ps.isEmpty ||
        (List.range' 1 ((c :: ts).length - 1)).any (fun i => likeMatch ps ((c :: ts).drop i))
  | LikeType.str s :: ps, c :: ts =>
      if s.isPrefixOf (c :: ts) then likeMatch ps ((c :: ts).drop s.length) else false

/-- The row loop of `Table::like`; `d[col]` aborts on an absent column. -/
def likeRows (col : String) (ptoks : List LikeType) : List Row → Option (List Row)
  | [] => some []
  | d :: rest =>
      match mapGet col d with
      | some (Ty.text (some s)) =>
          (likeRows col ptoks rest).map (fun rs => if likeMatch ptoks s.data then d :: rs else rs)
      | some _ => likeRows col ptoks rest
      | none => none

/-- The source's `Table::like`. -/
def Table.like (self : Table) (col : String) (pattern : String) : Option Table :=
  (likeRows col (tokenize pattern.data) self.data).map (fun rs => { self with data := rs })

/-- The schema-extension loop of `Table::left_join`: appends every column of
`other` not already present, copying kind and width, and collects those
names (`other_cols`).  `other.column[o]` / `other.max_lens[o]` index and
abort on a miss. -/
def extendLoop (other : Table) :
    List String → Table → List String → Option (Table × List String)
  | [], t, ocs => some (t, ocs)
  | o :: rest, t, ocs =>
      if (mapGet o t.column).isSome then extendLoop other rest t ocs
      else
        match mapGet o other.column, mapGet o other.max_lens with
        | some v, some w =>
            extendLoop other rest
              { t with
                order := t.order ++ [o],
                column := mapInsert o v t.column,
                max_lens := mapInsert o w t.max_lens }
              (ocs ++ [o])
        | _, _ => none

/-- The inner merge of `Table::left_join`: copy each imported column of a
matching right row into the left row; `od.get(oc).unwrap()` aborts when the
right row lacks that column. -/
def importRow (od : Row) : List String → Row → Option Row
  | [], d => some d
  | oc :: rest, d =>
      match mapGet oc od with
      | some v => importRow od rest (mapInsert oc v d)
      | none => none

/-- The per-left-row loop of `Table::left_join` over all right rows. -/
def joinRow (key : String) (ocs : List String) : List Row → Row → Option Row
  | [], d => some d
  | od :: rest, d =>
      if mapGet key d = mapGet key od then
        match importRow od ocs d with
        | some d1 => joinRow key ocs rest d1
        | none => none
      else joinRow key ocs rest d

/-- Fallible map over the rows (the `for d in &mut new_t.data` loop). -/
def mapRows (f : Row → Option Row) : List Row → Option (List Row)
  | [] => some []
  | d :: rest =>
      match f d with
      | some r => (mapRows f rest).map (fun rs => r :: rs)
      | none => none

/-- The source's `Table::left_join`.  When `key` is missing from either
schema the call returns the left table unchanged. -/
def Table.left_join (self : Table) (other : Table) (key : String) : Option Table :=
  if (mapGet key other.column).isNone ∨ (mapGet key self.column).isNone then some self
  else
    (extendLoop other other.order self []).bind (fun p =>
      (mapRows (joinRow key p.2 other.data) p.1.data).map
        (fun rows => { p.1 with data := rows }))

/-- String of `n` copies of `c` (padding helper for `display`). -/
def fillStr (c : Char) (n : Nat) : String :=
  String.mk (List.replicate n c)

/-- Rust left-aligned fill formatting (never truncates). -/
def padL (s : String) (c : Char) (w : Nat) : String :=
  s ++ fillStr c (w - s.length)

/-- Rust right-aligned fill formatting. -/
def padR (s : String) (c : Char) (w : Nat) : String :=
  fillStr c (w - s.length) ++ s

/-- Rust centered formatting (extra cell goes to the right). -/
def padC (s : String) (w : Nat) : String :=
  fillStr ' ' ((w - s.length) / 2) ++ s ++ fillStr ' ' ((w - s.length) - (w - s.length) / 2)

/-- Per-column accumulation used by `display`; `self.max_lens[key]` indexing
aborts on a miss. -/
def perCol (t : Table) (f : String → Nat → String) : List String → Option String
  | [] => some ""
  | c :: rest =>
      match mapGet c t.max_lens with
      | some w => (perCol t f rest).map (fun s => f c w ++ s)
      | none => none

/-- One data cell of `display`: integers right-aligned, text left-aligned,
null (explicit or column-absent) rendered as right-aligned `NULL`. -/
def cellStr (d : Row) (c : String) (w : Nat) : String :=
  match mapGet c d with
  | some (Ty.int (some v)) => padR (toString v) ' ' w
  | some (Ty.text (some s)) => padL s ' ' w
  | _ => padR "NULL" ' ' w

/-- All data lines of `display`. -/
def rowsStr (t : Table) : List Row → Option String
  | [] => some ""
  | d :: rest =>
      match perCol t (fun c w => " | " ++ cellStr d c w) t.order, rowsStr t rest with
      | some s, some srest => some (s ++ " |\n" ++ srest)
      | _, _ => none

/-- The source's `Table::display`, modelled as producing the printed text. -/
def Table.display (self : Table) : Option String :=
  match perCol self (fun _ w => "-" ++ padL "-" '-' w ++ "-+") self.order,
        perCol self (fun c w => " " ++ padC c w ++ " |") self.order,
        rowsStr self self.data with
  | some l, some h, some rs =>
      some (" +" ++ l ++ "\n |" ++ h ++ "\n +" ++ l ++ "\n" ++ rs ++ " +" ++ l ++ "\n")
  | _, _, _ => none

/-- Decimal digit count of the printed numeral (so `decDigits 0 = 1`). -/
def decDigits (n : Nat) : Nat :=
  if h : n < 10 then 1 else 1 + decDigits (n / 10)
  termination_by n
  decreasing_by exact Nat.div_lt_self (by omega) (by norm_num)

/-- The integer display width as the specification words it: decimal digit
count of the printed numeral, plus one for the sign when negative.  Declared
for comparison with the source's `i32_len`. -/
def specIntWidth (n : Int) : Nat :=
  (if n < 0 then 1 else 0) + decDigits n.natAbs

/-- The row predicate realised by `Table::less_than`'s loop body. -/
def ltPred (col : String) (num : Int) (d : Row) : Bool :=
  match mapGet col d with
  | some (Ty.int (some n)) => n < num
  | _ => false

/-- The row predicate realised by `Table::like`'s loop body. -/
def likePred (col : String) (ptoks : List LikeType) (d : Row) : Bool :=
  match mapGet col d with
  | some (Ty.text (some s)) => likeMatch ptoks s.data
  | _ => false

/-- Schema consistency: every key of every row is a schema column. -/
def consistentRows (t : Table) : Prop :=
  ∀ d ∈ t.data, ∀ p ∈ d, (mapGet p.1 t.column).isSome

/-- The `column` and `max_lens` maps have the same key set. -/
def lensDom (t : Table) : Prop :=
  (∀ p ∈ t.column, (mapGet p.1 t.max_lens).isSome) ∧
    (∀ p ∈ t.max_lens, (mapGet p.1 t.column).isSome)

/-- Well-formedness maintained by construction, insertion and join. -/
def wfT (t : Table) : Prop :=
  consistentRows t ∧ lensDom t

/-- The width-cache invariant that actually holds: every cached width
dominates its column-name length, and dominates the insert-computed width of
every value stored in a row under that column. -/
def widthOK (t : Table) : Prop :=
  (∀ p ∈ t.max_lens, p.1.length ≤ p.2) ∧
    (∀ d ∈ t.data, ∀ p ∈ d, ∀ w ∈ mapGet p.1 t.max_lens, ∀ len ∈ valLen p.2, len ≤ w)

/-- The right rows whose `key` entry agrees (as an `Option`, so two absent
keys agree) with the given left row's. -/
def keyMatches (key : String) (d : Row) (ods : List Row) : List Row :=
  ods.filter (fun od => decide (mapGet key d = mapGet key od))

/-- What `left_join` does to one left row: no matching right row leaves the
row untouched; otherwise every imported column takes the last matching right
row's value and every other key keeps the left row's value. -/
def mergedRowSpec (key : String) (ocs : List String) (ods : List Row) (d r : Row) : Prop :=
  (keyMatches key d ods = [] → r = d) ∧
    (∀ od, (keyMatches key d ods).getLast? = some od →
      (∀ oc ∈ ocs, mapGet oc r = mapGet oc od) ∧
        (∀ k, k ∉ ocs → mapGet k r = mapGet k d))

/-- Example: an integer-column table whose rows all carry the column. -/
def exT1 : Table :=
  ⟨"t1", ["x"], [("x", Ty.int none)], [("x", 1)],
    [[("x", Ty.int (some 3))], [("x", Ty.int (some 9))], [("x", Ty.int none)]]⟩

/-- Example: a table with one row from which column `x` is absent. -/
def exRowless : Table :=
  ⟨"t2", ["x"], [("x", Ty.int none)], [("x", 1)], [[]]⟩

/-- Example: join left table whose single row lacks the key. -/
def exJL : Table :=
  ⟨"L", ["k"], [("k", Ty.int none)], [("k", 1)], [[]]⟩

/-- Example: join right table whose single row lacks the key but carries `c`. -/
def exJR : Table :=
  ⟨"R", ["k", "c"], [("k", Ty.int none), ("c", Ty.int none)], [("k", 1), ("c", 1)],
    [[("c", Ty.int (some 7))]]⟩

/-- Example: join left table with two keyed rows. -/
def exJL2 : Table :=
  ⟨"L2", ["k", "a"], [("k", Ty.int none), ("a", Ty.text none)], [("k", 1), ("a", 1)],
    [[("k", Ty.int (some 1)), ("a", Ty.text (some "x"))], [("k", Ty.int (some 2))]]⟩

/-- Example: join right table with two rows matching key 1 and one unmatched. -/
def exJR2 : Table :=
  ⟨"R2", ["k", "c"], [("k", Ty.int none), ("c", Ty.int none)], [("k", 1), ("c", 2)],
    [[("k", Ty.int (some 1)), ("c", Ty.int (some 10))],
     [("k", Ty.int (some 1)), ("c", Ty.int (some 20))],
     [("k", Ty.int (some 3)), ("c", Ty.int (some 30))]]⟩

/-- Example: join right table whose matching row lacks the imported column. -/
def exJR3 : Table :=
  ⟨"R3", ["k", "c"], [("k", Ty.int none), ("c", Ty.int none)], [("k", 1), ("c", 1)],
    [[("k", Ty.int (some 1))]]⟩

/-- Example: join left table with a single row carrying key value 1. -/
def exJL3 : Table :=
  ⟨"L3", ["k"], [("k", Ty.int none)], [("k", 1)], [[("k", Ty.int (some 1))]]⟩

/-- Example: `exJL3` after schema extension against `exJR3`. -/
def exJT0 : Table :=
  ⟨"L3", ["k", "c"], [("k", Ty.int none), ("c", Ty.int none)], [("k", 1), ("c", 1)],
    [[("k", Ty.int (some 1))]]⟩

/-- Example: a two-column table used to show `select` breaking consistency. -/
def exSel : Table :=
  ⟨"t", ["a", "b"], [("a", Ty.int none), ("b", Ty.int none)], [("a", 1), ("b", 1)],
    [[("a", Ty.int (some 1)), ("b", Ty.int (some 2))]]⟩

/-- Example: a well-formed text-column table for insertion witnesses. -/
def exIns : Table :=
  ⟨"tw", ["s"], [("s", Ty.text none)], [("s", 2)], [[("s", Ty.text (some "ab"))]]⟩

instance (t : Table) : Decidable (consistentRows t) := by
  unfold consistentRows; exact inferInstance

instance (t : Table) : Decidable (lensDom t) := by
  unfold lensDom; exact instDecidableAnd

instance (t : Table) : Decidable (wfT t) := by
  unfold wfT; exact instDecidableAnd

instance (t : Table) : Decidable (widthOK t) := by
  unfold widthOK; exact instDecidableAnd

theorem mapGet_mapInsert_self {α : Type u} (k : String) (v : α) (m : List (String × α)) :
    mapGet k (mapInsert k v m) = some v := by
  induction m with
  | nil => simp [mapGet, mapInsert]
  | cons p rest ih =>
      by_cases hp : p.1 = k
      · simp [mapGet, mapInsert, hp]
      · simp [mapGet, mapInsert, hp, ih]

theorem mapGet_mapInsert_ne {α : Type u} {k k' : String} (v : α) (m : List (String × α))
    (h : k' ≠ k) : mapGet k' (mapInsert k v m) = mapGet k' m := by
  induction m with
  | nil => simp [mapGet, mapInsert, Ne.symm h]
  | cons p rest ih =>
      by_cases hp : p.1 = k
      · rw [mapInsert, if_pos hp, mapGet, if_neg (Ne.symm h), mapGet,
          if_neg (by rw [hp]; exact Ne.symm h)]
      · rw [mapInsert, if_neg hp, mapGet, mapGet]
        by_cases hp' : p.1 = k'
        · rw [if_pos hp', if_pos hp']
        · rw [if_neg hp', if_neg hp', ih]

theorem isSome_mapGet_mapInsert {α : Type u} (c k : String) (v : α) (m : List (String × α)) :
    (mapGet c (mapInsert k v m)).isSome ↔ c = k ∨ (mapGet c m).isSome := by
  by_cases hc : c = k
  · subst hc; simp [mapGet_mapInsert_self]
  · rw [mapGet_mapInsert_ne v m hc]
    simp [hc]

theorem mem_mapInsert {α : Type u} {p : String × α} {k : String} {v : α}
    {m : List (String × α)} (h : p ∈ mapInsert k v m) : p ∈ m ∨ p = (k, v) := by
  induction m with
  | nil => simp [mapInsert] at h; simp [h]
  | cons q rest ih =>
      by_cases hq : q.1 = k
      · rw [mapInsert, if_pos hq] at h
        rcases List.mem_cons.1 h with h | h
        · exact Or.inr h
        · exact Or.inl (List.mem_cons_of_mem q h)
      · rw [mapInsert, if_neg hq] at h
        rcases List.mem_cons.1 h with h | h
        · exact Or.inl (h ▸ List.mem_cons_self q rest)
        · rcases ih h with h | h
          · exact Or.inl (List.mem_cons_of_mem q h)
          · exact Or.inr h

theorem mapGet_eq_some_mem {α : Type u} {k : String} {v : α} {m : List (String × α)}
    (h : mapGet k m = some v) : (k, v) ∈ m := by
  induction m with
  | nil => simp [mapGet] at h
  | cons q rest ih =>
      by_cases hq : q.1 = k
      · rw [mapGet, if_pos hq] at h
        cases h
        subst hq
        exact List.mem_cons.2 (Or.inl Prod.mk.eta)
      · rw [mapGet, if_neg hq] at h
        exact List.mem_cons_of_mem q (ih h)

theorem mapGet_isSome_of_mem {α : Type u} {k : String} {v : α} {m : List (String × α)}
    (h : (k, v) ∈ m) : (mapGet k m).isSome := by
  induction m with
  | nil => simp at h
  | cons q rest ih =>
      rcases List.mem_cons.1 h with h | h
      · rw [mapGet, if_pos (by rw [← h])]
        simp
      · by_cases hq : q.1 = k
        · rw [mapGet, if_pos hq]; simp
        · rw [mapGet, if_neg hq]; exact ih h

theorem mapGet_isSome_iff_mem {α : Type u} (k : String) (m : List (String × α)) :
    (mapGet k m).isSome ↔ ∃ v, (k, v) ∈ m := by
  constructor
  · intro h
    rcases Option.isSome_iff_exists.1 h with ⟨v, hv⟩
    exact ⟨v, mapGet_eq_some_mem hv⟩
  · rintro ⟨v, hv⟩
    exact mapGet_isSome_of_mem hv

theorem ltRows_eq_filter (col : String) (num : Int) :
    ∀ l : List Row, (∀ d ∈ l, (mapGet col d).isSome) →
      ltRows col num l = some (l.filter (ltPred col num)) := by
  intro l
  induction l with
  | nil => intro _; rfl
  | cons d rest ih =>
      intro h
      have hd := h d (List.mem_cons_self d rest)
      have hrest := ih (fun x hx => h x (List.mem_cons_of_mem d hx))
      rcases Option.isSome_iff_exists.1 hd with ⟨v, hv⟩
      cases v with
      | int oi =>
          cases oi with
          | some n =>
              by_cases hn : n < num
              · simp [ltRows, hv, hrest, List.filter_cons, ltPred, hn]
              · simp [ltRows, hv, hrest, List.filter_cons, ltPred, hn]
          | none => simp [ltRows, hv, hrest, List.filter_cons, ltPred]
      | text ot => simp [ltRows, hv, hrest, List.filter_cons, ltPred]

theorem ltRows_subset (col : String) (num : Int) :
    ∀ (l rs : List Row), ltRows col num l = some rs → ∀ d ∈ rs, d ∈ l := by
  intro l
  induction l with
  | nil =>
      intro rs h d hd
      simp [ltRows] at h
      subst h
      simp at hd
  | cons x rest ih =>
      intro rs h d hd
      rw [ltRows] at h
      cases hv : mapGet col x with
      | none => rw [hv] at h; cases h
      | some v =>
          rw [hv] at h
          cases v with
          | int oi =>
              cases oi with
              | some n =>
                  cases hr : ltRows col num rest with
                  | none => rw [hr] at h; cases h
                  | some rs' =>
                      rw [hr] at h
                      simp only [Option.map_some'] at h
                      cases h
                      by_cases hn : n < num
                      · rw [if_pos hn] at hd
                        rcases List.mem_cons.1 hd with hd | hd
                        · exact hd ▸ List.mem_cons_self x rest
                        · exact List.mem_cons_of_mem x (ih rs' hr d hd)
                      · rw [if_neg hn] at hd
                        exact List.mem_cons_of_mem x (ih rs' hr d hd)
              | none => exact List.mem_cons_of_mem x (ih rs h d hd)
          | text ot => exact List.mem_cons_of_mem x (ih rs h d hd)

theorem likeRows_eq_filter (col : String) (ptoks : List LikeType) :
    ∀ l : List Row, (∀ d ∈ l, (mapGet col d).isSome) →
      likeRows col ptoks l = some (l.filter (likePred col ptoks)) := by
  intro l
  induction l with
  | nil => intro _; rfl
  | cons d rest ih =>
      intro h
      have hd := h d (List.mem_cons_self d rest)
      have hrest := ih (fun x hx => h x (List.mem_cons_of_mem d hx))
      rcases Option.isSome_iff_exists.1 hd with ⟨v, hv⟩
      cases v with
      | text ot =>
          cases ot with
          | some s =>
              by_cases hm : likeMatch ptoks s.data
              · simp [likeRows, hv, hrest, List.filter_cons, likePred, hm]
              · simp [likeRows, hv, hrest, List.filter_cons, likePred, hm]
          | none => simp [likeRows, hv, hrest, List.filter_cons, likePred]
      | int oi => simp [likeRows, hv, hrest, List.filter_cons, likePred]

theorem likeRows_subset (col : String) (ptoks : List LikeType) :
    ∀ (l rs : List Row), likeRows col ptoks l = some rs → ∀ d ∈ rs, d ∈ l := by
  intro l
  induction l with
  | nil =>
      intro rs h d hd
      simp [likeRows] at h
      subst h
      simp at hd
  | cons x rest ih =>
      intro rs h d hd
      rw [likeRows] at h
      cases hv : mapGet col x with
      | none => rw [hv] at h; cases h
      | some v =>
          rw [hv] at h
          cases v with
          | text ot =>
              cases ot with
              | some s =>
                  cases hr : likeRows col ptoks rest with
                  | none => rw [hr] at h; cases h
                  | some rs' =>
                      rw [hr] at h
                      simp only [Option.map_some'] at h
                      cases h
                      by_cases hm : likeMatch ptoks s.data
                      · rw [if_pos hm] at hd
                        rcases List.mem_cons.1 hd with hd | hd
                        · exact hd ▸ List.mem_cons_self x rest
                        · exact List.mem_cons_of_mem x (ih rs' hr d hd)
                      · rw [if_neg hm] at hd
                        exact List.mem_cons_of_mem x (ih rs' hr d hd)
              | none => exact List.mem_cons_of_mem x (ih rs h d hd)
          | int oi => exact List.mem_cons_of_mem x (ih rs h d hd)

theorem mapRows_forall2 (f : Row → Option Row) :
    ∀ (l rs : List Row), mapRows f l = some rs →
      List.Forall₂ (fun d r => f d = some r) l rs := by
  intro l
  induction l with
  | nil =>
      intro rs h
      simp [mapRows] at h
      subst h
      exact List.Forall₂.nil
  | cons d rest ih =>
      intro rs h
      rw [mapRows] at h
      cases hf : f d with
      | none => rw [hf] at h; cases h
      | some r =>
          rw [hf] at h
          cases hr : mapRows f rest with
          | none => rw [hr] at h; cases h
          | some rs' =>
              rw [hr] at h
              simp only [Option.map_some'] at h
              cases h
              exact List.Forall₂.cons hf (ih rs' hr)

theorem mapRows_mem_source (f : Row → Option Row) :
    ∀ (l rs : List Row), mapRows f l = some rs →
      ∀ r ∈ rs, ∃ d ∈ l, f d = some r := by
  intro l
  induction l with
  | nil =>
      intro rs h r hr
      simp [mapRows] at h
      subst h
      simp at hr
  | cons d rest ih =>
      intro rs h r hr
      rw [mapRows] at h
      cases hf : f d with
      | none => rw [hf] at h; cases h
      | some r0 =>
          rw [hf] at h
          cases hrest : mapRows f rest with
          | none => rw [hrest] at h; cases h
          | some rs' =>
              rw [hrest] at h
              simp only [Option.map_some'] at h
              cases h
              rcases List.mem_cons.1 hr with hr | hr
              · exact ⟨d, List.mem_cons_self d rest, hr ▸ hf⟩
              · rcases ih rs' hrest r hr with ⟨d', hd', hfd'⟩
                exact ⟨d', List.mem_cons_of_mem d hd', hfd'⟩

theorem mapRows_none (f : Row → Option Row) :
    ∀ (l : List Row) (d : Row), d ∈ l → f d = none → mapRows f l = none := by
  intro l
  induction l with
  | nil => intro d hd; simp at hd
  | cons x rest ih =>
      intro d hd hf
      rcases List.mem_cons.1 hd with hd | hd
      · rw [mapRows, ← hd, hf]
      · rw [mapRows]
        cases hx : f x with
        | none => rfl
        | some r => rw [ih d hd hf]; rfl

theorem importRow_none (od : Row) :
    ∀ (ocs : List String) (oc : String) (d : Row), oc ∈ ocs → mapGet oc od = none →
      importRow od ocs d = none := by
  intro ocs
  induction ocs with
  | nil => intro oc d h; simp at h
  | cons oc0 rest ih =>
      intro oc d hmem hmiss
      rw [importRow]
      rcases List.mem_cons.1 hmem with hmem | hmem
      · rw [← hmem, hmiss]
      · cases h0 : mapGet oc0 od with
        | none => rfl
        | some v => exact ih oc (mapInsert oc0 v d) hmem hmiss

theorem importRow_mem (od : Row) :
    ∀ (ocs : List String) (d d' : Row), importRow od ocs d = some d' →
      ∀ p ∈ d', p ∈ d ∨ (p.1 ∈ ocs ∧ mapGet p.1 od = some p.2) := by
  intro ocs
  induction ocs with
  | nil =>
      intro d d' h p hp
      rw [importRow] at h
      cases h
      exact Or.inl hp
  | cons oc0 rest ih =>
      intro d d' h p hp
      rw [importRow] at h
      cases h0 : mapGet oc0 od with
      | none => rw [h0] at h; cases h
      | some v =>
          rw [h0] at h
          rcases ih (mapInsert oc0 v d) d' h p hp with hin | ⟨hmem, hval⟩
          · rcases mem_mapInsert hin with hin | hin
            · exact Or.inl hin
            · subst hin
              exact Or.inr ⟨List.mem_cons_self oc0 rest, h0⟩
          · exact Or.inr ⟨List.mem_cons_of_mem oc0 hmem, hval⟩

theorem importRow_get_not_mem (od : Row) :
    ∀ (ocs : List String) (d d' : Row), importRow od ocs d = some d' →
      ∀ k, k ∉ ocs → mapGet k d' = mapGet k d := by
  intro ocs
  induction ocs with
  | nil =>
      intro d d' h k _
      rw [importRow] at h
      cases h
      rfl
  | cons oc0 rest ih =>
      intro d d' h k hk
      rw [importRow] at h
      cases h0 : mapGet oc0 od with
      | none => rw [h0] at h; cases h
      | some v =>
          rw [h0] at h
          have hk0 : k ≠ oc0 := fun he => hk (he ▸ List.mem_cons_self oc0 rest)
          have hkr : k ∉ rest := fun hin => hk (List.mem_cons_of_mem oc0 hin)
          rw [ih (mapInsert oc0 v d) d' h k hkr, mapGet_mapInsert_ne v d hk0]

theorem importRow_get_mem (od : Row) :
    ∀ (ocs : List String) (d d' : Row), importRow od ocs d = some d' →
      ∀ oc ∈ ocs, mapGet oc d' = mapGet oc od := by
  intro ocs
  induction ocs with
  | nil => intro d d' h oc hmem; simp at hmem
  | cons oc0 rest ih =>
      intro d d' h oc hmem
      rw [importRow] at h
      cases h0 : mapGet oc0 od with
      | none => rw [h0] at h; cases h
      | some v =>
          rw [h0] at h
          rcases List.mem_cons.1 hmem with hmem | hmem
          · subst hmem
            by_cases hr : oc ∈ rest
            · exact ih (mapInsert oc v d) d' h oc hr
            · rw [importRow_get_not_mem od rest (mapInsert oc v d) d' h oc hr,
                mapGet_mapInsert_self, h0]
          · exact ih (mapInsert oc0 v d) d' h oc hmem

theorem joinRow_mem (key : String) (ocs : List String) :
    ∀ (ods : List Row) (d r : Row), joinRow key ocs ods d = some r →
      ∀ p ∈ r, p ∈ d ∨ (p.1 ∈ ocs ∧ ∃ od ∈ ods, mapGet p.1 od = some p.2) := by
  intro ods
  induction ods with
  | nil =>
      intro d r h p hp
      rw [joinRow] at h
      cases h
      exact Or.inl hp
  | cons od rest ih =>
      intro d r h p hp
      rw [joinRow] at h
      by_cases hc : mapGet key d = mapGet key od
      · rw [if_pos hc] at h
        cases him : importRow od ocs d with
        | none => rw [him] at h; cases h
        | some d1 =>
            rw [him] at h
            rcases ih d1 r h p hp with hin | ⟨hmem, od', hod', hval⟩
            · rcases importRow_mem od ocs d d1 him p hin with hin | ⟨hmem, hval⟩
              · exact Or.inl hin
              · exact Or.inr ⟨hmem, od, List.mem_cons_self od rest, hval⟩
            · exact Or.inr ⟨hmem, od', List.mem_cons_of_mem od hod', hval⟩
      · rw [if_neg hc] at h
        rcases ih d r h p hp with hin | ⟨hmem, od', hod', hval⟩
        · exact Or.inl hin
        · exact Or.inr ⟨hmem, od', List.mem_cons_of_mem od hod', hval⟩

theorem joinRow_none (key : String) (ocs : List String) (oc : String)
    (hkn : key ∉ ocs) (hoc : oc ∈ ocs) :
    ∀ (ods : List Row) (d od : Row), od ∈ ods → mapGet key d = mapGet key od →
      mapGet oc od = none → joinRow key ocs ods d = none := by
  intro ods
  induction ods with
  | nil => intro d od h; simp at h
  | cons od0 rest ih =>
      intro d od hod hkey hmiss
      rw [joinRow]
      rcases List.mem_cons.1 hod with hod | hod
      · subst hod
        rw [if_pos hkey, importRow_none od ocs oc d hoc hmiss]
      · by_cases hc : mapGet key d = mapGet key od0
        · rw [if_pos hc]
          cases him : importRow od0 ocs d with
          | none => rfl
          | some d1 =>
              have hkd1 : mapGet key d1 = mapGet key d :=
                importRow_get_not_mem od0 ocs d d1 him key hkn
              exact ih d1 od hod (hkd1.trans hkey) hmiss
        · rw [if_neg hc]
          exact ih d od hod hkey hmiss

theorem joinRow_spec (key : String) (ocs : List String) (hkn : key ∉ ocs) :
    ∀ (ods : List Row) (d r : Row), joinRow key ocs ods d = some r →
      mergedRowSpec key ocs ods d r := by
  intro ods
  induction ods with
  | nil =>
      intro d r h
      rw [joinRow] at h
      cases h
      constructor
      · intro _; rfl
      · intro od hlast
        simp [keyMatches] at hlast
  | cons od rest ih =>
      intro d r h
      rw [joinRow] at h
      by_cases hc : mapGet key d = mapGet key od
      · rw [if_pos hc] at h
        cases him : importRow od ocs d with
        | none => rw [him] at h; cases h
        | some d1 =>
            rw [him] at h
            have hIH := ih d1 r h
            have hkd1 : ∀ k, k ∉ ocs → mapGet k d1 = mapGet k d :=
              fun k hk => importRow_get_not_mem od ocs d d1 him k hk
            have hfil : keyMatches key d1 rest = keyMatches key d rest := by
              unfold keyMatches
              apply List.filter_congr
              intro x _
              rw [hkd1 key hkn]
            have hcons : keyMatches key d (od :: rest) = od :: keyMatches key d rest := by
              unfold keyMatches
              rw [List.filter_cons, if_pos (by simp [hc])]
            rcases hIH with ⟨hIH1, hIH2⟩
            constructor
            · intro hempty
              rw [hcons] at hempty
              simp at hempty
            · intro od' hlast
              rw [hcons] at hlast
              by_cases hrest : keyMatches key d rest = []
              · rw [hrest] at hlast
                simp at hlast
                subst hlast
                have hr : r = d1 := hIH1 (by rw [hfil, hrest])
                constructor
                · intro oc hococ
                  rw [hr]
                  exact importRow_get_mem od ocs d d1 him oc hococ
                · intro k hk
                  rw [hr]
                  exact hkd1 k hk
              · have hlast' : (keyMatches key d rest).getLast? = some od' := by
                  rcases List.exists_cons_of_ne_nil hrest with ⟨y, ys, hys⟩
                  rw [hys] at hlast ⊢
                  rw [List.getLast?_cons_cons] at hlast
                  exact hlast
                rcases hIH2 od' (by rw [hfil]; exact hlast') with ⟨h2a, h2b⟩
                constructor
                · exact h2a
                · intro k hk
                  rw [h2b k hk, hkd1 k hk]
      · rw [if_neg hc] at h
        have hIH := ih d r h
        have hskip : keyMatches key d (od :: rest) = keyMatches key d rest := by
          unfold keyMatches
          rw [List.filter_cons, if_neg (by simp [hc])]
        rcases hIH with ⟨h1, h2⟩
        constructor
        · intro hempty
          exact h1 (by rw [← hskip]; exact hempty)
        · intro od' hlast
          exact h2 od' (by rw [← hskip]; exact hlast)

theorem extendLoop_col (other : Table) :
    ∀ (os : List String) (t : Table) (ocs : List String) (t' : Table) (ocs' : List String),
      extendLoop other os t ocs = some (t', ocs') →
      (t'.name = t.name ∧ t'.data = t.data) ∧
      (∀ x ∈ ocs, x ∈ ocs') ∧
      (∀ c, (mapGet c t.column).isSome → mapGet c t'.column = mapGet c t.column) ∧
      (∀ oc ∈ ocs', oc ∈ ocs ∨ (mapGet oc t.column = none ∧
          mapGet oc t'.column = mapGet oc other.column ∧ (mapGet oc other.column).isSome)) ∧
      (∀ c, (mapGet c t'.column).isSome → (mapGet c t.column).isSome ∨ c ∈ ocs') ∧
      ((∀ x ∈ ocs, (mapGet x t.column).isSome) → ∀ x ∈ ocs', (mapGet x t'.column).isSome) := by
  intro os
  induction os with
  | nil =>
      intro t ocs t' ocs' h
      rw [extendLoop] at h
      cases h
      exact ⟨⟨rfl, rfl⟩, fun x hx => hx, fun c _ => rfl,
        fun oc hoc => Or.inl hoc, fun c hc => Or.inl hc, fun hall x hx => hall x hx⟩
  | cons o rest ih =>
      intro t ocs t' ocs' h
      rw [extendLoop] at h
      by_cases hin : (mapGet o t.column).isSome
      · rw [if_pos hin] at h
        exact ih t ocs t' ocs' h
      · rw [if_neg hin] at h
        have hnone : mapGet o t.column = none := Option.not_isSome_iff_eq_none.1 hin
        cases hoc : mapGet o other.column with
        | none => rw [hoc] at h; cases h
        | some v =>
            rw [hoc] at h
            cases hw : mapGet o other.max_lens with
            | none => rw [hw] at h; cases h
            | some w =>
                rw [hw] at h
                obtain ⟨⟨hname, hdata⟩, hg, hb, hc', hd, hf⟩ :=
                  ih ⟨t.name, t.order ++ [o], mapInsert o v t.column,
                    mapInsert o w t.max_lens, t.data⟩ (ocs ++ [o]) t' ocs' h
                have ht1self : mapGet o (mapInsert o v t.column) = some v :=
                  mapGet_mapInsert_self o v t.column
                have ht1ne : ∀ c, c ≠ o →
                    mapGet c (mapInsert o v t.column) = mapGet c t.column :=
                  fun c hco => mapGet_mapInsert_ne v t.column hco
                refine ⟨⟨hname, hdata⟩, ?_, ?_, ?_, ?_, ?_⟩
                · intro x hx
                  exact hg x (List.mem_append_left _ hx)
                · intro c hcs
                  have hco : c ≠ o := fun he => hin (he ▸ hcs)
                  have := hb c (by rw [ht1ne c hco] at *; exact hcs)
                  rw [this, ht1ne c hco]
                · intro oc hoc'
                  rcases hc' oc hoc' with hoc1 | ⟨hnone1, heq1, hsome1⟩
                  · rcases List.mem_append.1 hoc1 with h1 | h1
                    · exact Or.inl h1
                    · have heo : oc = o := by simpa using h1
                      subst heo
                      refine Or.inr ⟨hnone, ?_, ?_⟩
                      · rw [hb oc (by rw [ht1self]; rfl), ht1self, hoc]
                      · rw [hoc]; rfl
                  · refine Or.inr ⟨?_, heq1, hsome1⟩
                    by_cases hco : oc = o
                    · subst hco
                      rw [ht1self] at hnone1
                      cases hnone1
                    · rw [← ht1ne oc hco]
                      exact hnone1
                · intro c hcs
                  rcases hd c hcs with h1 | h1
                  · by_cases hco : c = o
                    · subst hco
                      exact Or.inr (hg c (List.mem_append_right _ (by simp)))
                    · rw [ht1ne c hco] at h1
                      exact Or.inl h1
                  · exact Or.inr h1
                · intro hall x hx
                  apply hf ?_ x hx
                  intro y hy
                  rcases List.mem_append.1 hy with h1 | h1
                  · have hys := hall y h1
                    have hyo : y ≠ o := fun he => hin (he ▸ hys)
                    rw [ht1ne y hyo]
                    exact hys
                  · have heo : y = o := by simpa using h1
                    subst heo
                    rw [ht1self]
                    rfl

theorem extendLoop_lens (other : Table) :
    ∀ (os : List String) (t : Table) (ocs : List String) (t' : Table) (ocs' : List String),
      extendLoop other os t ocs = some (t', ocs') →
      (∀ c, (mapGet c t.column).isSome ↔ (mapGet c t.max_lens).isSome) →
      (∀ c, (mapGet c t.column).isSome → mapGet c t'.max_lens = mapGet c t.max_lens) ∧
      (∀ oc ∈ ocs', oc ∈ ocs ∨ mapGet oc t'.max_lens = mapGet oc other.max_lens) ∧
      (∀ c, (mapGet c t'.column).isSome ↔ (mapGet c t'.max_lens).isSome) ∧
      (∀ q ∈ t'.max_lens, q ∈ t.max_lens ∨ mapGet q.1 other.max_lens = some q.2) := by
  intro os
  induction os with
  | nil =>
      intro t ocs t' ocs' h hdom
      rw [extendLoop] at h
      cases h
      exact ⟨fun c _ => rfl, fun oc hoc => Or.inl hoc, hdom, fun q hq => Or.inl hq⟩
  | cons o rest ih =>
      intro t ocs t' ocs' h hdom
      rw [extendLoop] at h
      by_cases hin : (mapGet o t.column).isSome
      · rw [if_pos hin] at h
        exact ih t ocs t' ocs' h hdom
      · rw [if_neg hin] at h
        have hnonec : mapGet o t.column = none := Option.not_isSome_iff_eq_none.1 hin
        have hinl : ¬ (mapGet o t.max_lens).isSome := fun hs => hin ((hdom o).2 hs)
        cases hoc : mapGet o other.column with
        | none => rw [hoc] at h; cases h
        | some v =>
            rw [hoc] at h
            cases hw : mapGet o other.max_lens with
            | none => rw [hw] at h; cases h
            | some w =>
                rw [hw] at h
                have hdom1 : ∀ c, (mapGet c (mapInsert o v t.column)).isSome ↔
                    (mapGet c (mapInsert o w t.max_lens)).isSome := by
                  intro c
                  by_cases hco : c = o
                  · subst hco
                    rw [mapGet_mapInsert_self, mapGet_mapInsert_self]
                    simp
                  · rw [mapGet_mapInsert_ne v t.column hco,
                      mapGet_mapInsert_ne w t.max_lens hco]
                    exact hdom c
                obtain ⟨ha, hbb, hcc, hqq⟩ :=
                  ih ⟨t.name, t.order ++ [o], mapInsert o v t.column,
                    mapInsert o w t.max_lens, t.data⟩ (ocs ++ [o]) t' ocs' h hdom1
                refine ⟨?_, ?_, hcc, ?_⟩
                · intro c hcs
                  have hco : c ≠ o := fun he => hin (he ▸ hcs)
                  have h1 := ha c (by rw [mapGet_mapInsert_ne v t.column hco]; exact hcs)
                  rw [h1, mapGet_mapInsert_ne w t.max_lens hco]
                · intro oc hoc'
                  rcases hbb oc hoc' with h1 | h1
                  · rcases List.mem_append.1 h1 with h2 | h2
                    · exact Or.inl h2
                    · have heo : oc = o := by simpa using h2
                      subst heo
                      refine Or.inr ?_
                      have := ha oc (by rw [mapGet_mapInsert_self]; rfl)
                      rw [this, mapGet_mapInsert_self, hw]
                  · exact Or.inr h1
                · intro q hq
                  rcases hqq q hq with h1 | h1
                  · rcases mem_mapInsert h1 with h1 | h1
                    · exact Or.inl h1
                    · refine Or.inr ?_
                      rw [h1]
                      exact hw
                  · exact Or.inr h1

theorem insertLoop_spec (column : List (String × Ty)) :
    ∀ (entries : List (String × Ty)) (m : List (String × Nat)) (h : Row)
      (m' : List (String × Nat)) (h' : Row),
      insertLoop column m h entries = some (m', h') →
      (∀ c, (mapGet c m).isSome ↔ (mapGet c m').isSome) ∧
      (∀ c w', mapGet c m' = some w' → ∃ w, mapGet c m = some w ∧ w ≤ w') ∧
      (∀ p ∈ m', p ∈ m ∨ ∃ cur, mapGet p.1 m = some cur ∧ cur ≤ p.2) ∧
      (∀ p ∈ h', p ∈ h ∨ ((mapGet p.1 column).isSome ∧ ∃ len, valLen p.2 = some len ∧
          ∀ w', mapGet p.1 m' = some w' → len ≤ w')) := by
  intro entries
  induction entries with
  | nil =>
      intro m h m' h' heq
      rw [insertLoop] at heq
      cases heq
      refine ⟨fun c => Iff.rfl, fun c w' hw' => ⟨w', hw', le_refl w'⟩,
        fun p hp => Or.inl hp, fun p hp => Or.inl hp⟩
  | cons e rest ih =>
      intro m h m' h' heq
      rw [insertLoop] at heq
      by_cases hcol : (mapGet e.1 column).isSome
      · rw [if_pos hcol] at heq
        by_cases hdup : (mapGet e.1 h).isSome
        · rw [if_pos hdup] at heq; cases heq
        · rw [if_neg hdup] at heq
          cases hv : valLen e.2 with
          | none => rw [hv] at heq; cases heq
          | some len =>
              rw [hv] at heq
              cases hcur : mapGet e.1 m with
              | none => rw [hcur] at heq; cases heq
              | some cur =>
                  rw [hcur] at heq
                  obtain ⟨ihdom, ihle, ihmem, ihrow⟩ :=
                    ih (if cur < len then mapInsert e.1 len m else m)
                      (mapInsert e.1 e.2 h) m' h' heq
                  have hm1get : mapGet e.1 (if cur < len then mapInsert e.1 len m else m) =
                      some (if cur < len then len else cur) := by
                    by_cases hlt : cur < len
                    · rw [if_pos hlt, if_pos hlt, mapGet_mapInsert_self]
                    · rw [if_neg hlt, if_neg hlt, hcur]
                  have hm1ne : ∀ c, c ≠ e.1 →
                      mapGet c (if cur < len then mapInsert e.1 len m else m) = mapGet c m := by
                    intro c hc
                    by_cases hlt : cur < len
                    · rw [if_pos hlt, mapGet_mapInsert_ne len m hc]
                    · rw [if_neg hlt]
                  have hm1dom : ∀ c, (mapGet c m).isSome ↔
                      (mapGet c (if cur < len then mapInsert e.1 len m else m)).isSome := by
                    intro c
                    by_cases hc : c = e.1
                    · subst hc
                      rw [hcur, hm1get]
                      simp
                    · rw [hm1ne c hc]
                  have hm1le : ∀ c w1,
                      mapGet c (if cur < len then mapInsert e.1 len m else m) = some w1 →
                      ∃ w, mapGet c m = some w ∧ w ≤ w1 := by
                    intro c w1 hw1
                    by_cases hc : c = e.1
                    · subst hc
                      rw [hm1get] at hw1
                      cases hw1
                      refine ⟨cur, hcur, ?_⟩
                      by_cases hlt : cur < len
                      · rw [if_pos hlt]; exact le_of_lt hlt
                      · rw [if_neg hlt]
                    · rw [hm1ne c hc] at hw1
                      exact ⟨w1, hw1, le_refl w1⟩
                  refine ⟨?_, ?_, ?_, ?_⟩
                  · intro c
                    exact (hm1dom c).trans (ihdom c)
                  · intro c w' hw'
                    rcases ihle c w' hw' with ⟨w1, hw1, hle1⟩
                    rcases hm1le c w1 hw1 with ⟨w, hw, hle2⟩
                    exact ⟨w, hw, le_trans hle2 hle1⟩
                  · intro p hp
                    rcases ihmem p hp with hp1 | ⟨cur1, hcur1, hle1⟩
                    · by_cases hlt : cur < len
                      · rw [if_pos hlt] at hp1
                        rcases mem_mapInsert hp1 with hp1 | hp1
                        · exact Or.inl hp1
                        · refine Or.inr ⟨cur, ?_, ?_⟩
                          · rw [hp1]; exact hcur
                          · rw [hp1]; exact le_of_lt hlt
                      · rw [if_neg hlt] at hp1
                        exact Or.inl hp1
                    · rcases hm1le p.1 cur1 hcur1 with ⟨w, hw, hle2⟩
                      exact Or.inr ⟨w, hw, le_trans hle2 hle1⟩
                  · intro p hp
                    rcases ihrow p hp with hp1 | hp1
                    · rcases mem_mapInsert hp1 with hp1 | hp1
                      · exact Or.inl hp1
                      · refine Or.inr ⟨?_, len, ?_, ?_⟩
                        · rw [hp1]; exact hcol
                        · rw [hp1]; exact hv
                        · intro w' hw'
                          rw [hp1] at hw'
                          rcases ihle e.1 w' hw' with ⟨w1, hw1, hle1⟩
                          rw [hm1get] at hw1
                          cases hw1
                          refine le_trans ?_ hle1
                          by_cases hlt : cur < len
                          · rw [if_pos hlt]
                          · rw [if_neg hlt]
                            exact le_of_not_lt hlt
                    · exact Or.inr hp1
      · rw [if_neg hcol] at heq; cases heq

theorem lensDom_iff (t : Table) : lensDom t ↔
    ∀ c, (mapGet c t.column).isSome ↔ (mapGet c t.max_lens).isSome := by
  unfold lensDom
  constructor
  · rintro ⟨h1, h2⟩ c
    constructor
    · intro hs
      rcases (mapGet_isSome_iff_mem c t.column).1 hs with ⟨v, hv⟩
      exact h1 (c, v) hv
    · intro hs
      rcases (mapGet_isSome_iff_mem c t.max_lens).1 hs with ⟨w, hw⟩
      exact h2 (c, w) hw
  · intro h
    constructor
    · intro p hp
      exact (h p.1).1 (mapGet_isSome_of_mem (by rw [Prod.mk.eta]; exact hp))
    · intro p hp
      exact (h p.1).2 (mapGet_isSome_of_mem (by rw [Prod.mk.eta]; exact hp))

theorem selectLoop_get (source : List (String × Ty)) :
    ∀ (cols : List String) (acc : List (String × Ty)) (c : String),
      mapGet c (selectLoop source cols acc) =
        if c ∈ cols ∧ (mapGet c source).isSome then mapGet c source else mapGet c acc := by
  intro cols
  induction cols with
  | nil =>
      intro acc c
      rw [selectLoop]
      simp
  | cons c0 rest ih =>
      intro acc c
      rw [selectLoop]
      cases hv : mapGet c0 source with
      | some v =>
          rw [ih (mapInsert c0 v acc) c]
          by_cases hc : c ∈ rest ∧ (mapGet c source).isSome
          · rw [if_pos hc, if_pos ⟨List.mem_cons_of_mem c0 hc.1, hc.2⟩]
          · rw [if_neg hc]
            by_cases hceq : c = c0
            · subst hceq
              rw [mapGet_mapInsert_self,
                if_pos ⟨List.mem_cons_self c rest, by rw [hv]; rfl⟩, hv]
            · rw [mapGet_mapInsert_ne v acc hceq,
                if_neg (fun hcon => hc ⟨List.mem_of_ne_of_mem hceq hcon.1, hcon.2⟩)]
      | none =>
          rw [ih acc c]
          by_cases hc : c ∈ rest ∧ (mapGet c source).isSome
          · rw [if_pos hc, if_pos ⟨List.mem_cons_of_mem c0 hc.1, hc.2⟩]
          · rw [if_neg hc]
            by_cases hceq : c = c0
            · subst hceq
              rw [if_neg (fun hcon => by rw [hv] at hcon; simp at hcon)]
            · rw [if_neg (fun hcon => hc ⟨List.mem_of_ne_of_mem hceq hcon.1, hcon.2⟩)]

theorem perCol_isSome (t : Table) (f : String → Nat → String) :
    ∀ l : List String, (∀ c ∈ l, (mapGet c t.max_lens).isSome) → (perCol t f l).isSome := by
  intro l
  induction l with
  | nil => intro _; rw [perCol]; rfl
  | cons c rest ih =>
      intro h
      rw [perCol]
      rcases Option.isSome_iff_exists.1 (h c (List.mem_cons_self c rest)) with ⟨w, hw⟩
      rw [hw]
      rcases Option.isSome_iff_exists.1
        (ih (fun x hx => h x (List.mem_cons_of_mem c hx))) with ⟨s, hs⟩
      rw [hs]
      rfl

theorem rowsStr_isSome (t : Table) (hord : ∀ c ∈ t.order, (mapGet c t.max_lens).isSome) :
    ∀ l : List Row, (rowsStr t l).isSome := by
  intro l
  induction l with
  | nil => rw [rowsStr]; rfl
  | cons d rest ih =>
      rw [rowsStr]
      rcases Option.isSome_iff_exists.1
        (perCol_isSome t (fun c w => " | " ++ cellStr d c w) t.order hord) with ⟨s, hs⟩
      rw [hs]
      rcases Option.isSome_iff_exists.1 ih with ⟨srest, hsrest⟩
      rw [hsrest]
      rfl

theorem natLen_eq_decDigits : ∀ n : Nat, 0 < n → natLen n = decDigits n := by
  intro n
  induction n using Nat.strong_induction_on with
  | _ n ih =>
      intro hn
      rw [natLen, decDigits, dif_neg (Nat.pos_iff_ne_zero.1 hn)]
      by_cases h10 : n < 10
      · rw [dif_pos h10, Nat.div_eq_of_lt h10]
        simp [natLen]
      · rw [dif_neg h10]
        congr 1
        exact ih (n / 10) (Nat.div_lt_self hn (by norm_num))
          (Nat.div_pos (le_of_not_lt h10) (by norm_num))

theorem i32_len_eq_spec (n : Int) (hmin : -(2 ^ 31) < n) (hne : n ≠ 0) :
    i32_len n = some (specIntWidth n) := by
  unfold i32_len specIntWidth
  by_cases hneg : n < 0
  · rw [if_pos hneg, if_pos hneg, if_neg (by omega : ¬ n = -(2 ^ 31))]
    have htn : (-n).toNat = n.natAbs := by omega
    have hpos : 0 < n.natAbs := by omega
    rw [htn, natLen_eq_decDigits n.natAbs hpos]
  · rw [if_neg hneg, if_neg hneg]
    have htn : n.toNat = n.natAbs := by omega
    have hpos : 0 < n.natAbs := by omega
    rw [htn, natLen_eq_decDigits n.natAbs hpos]
    simp

theorem newLoop_spec :
    ∀ (cols : List (String × Ty)) (o : List String) (cmap : List (String × Ty))
      (m : List (String × Nat)),
      (∀ p ∈ m, p.2 = p.1.length) →
      (∀ c, (mapGet c cmap).isSome ↔ (mapGet c m).isSome) →
      (∀ p ∈ (newLoop (o, cmap, m) cols).2.2, p.2 = p.1.length) ∧
      (∀ c, (mapGet c (newLoop (o, cmap, m) cols).2.1).isSome ↔
        (mapGet c (newLoop (o, cmap, m) cols).2.2).isSome) := by
  intro cols
  induction cols with
  | nil => intro o cmap m h1 h2; rw [newLoop]; exact ⟨h1, h2⟩
  | cons c rest ih =>
      intro o cmap m h1 h2
      rw [newLoop]
      apply ih
      · intro p hp
        rcases mem_mapInsert hp with hp | hp
        · exact h1 p hp
        · rw [hp]
      · intro cc
        by_cases hcc : cc = c.1
        · subst hcc
          rw [mapGet_mapInsert_self, mapGet_mapInsert_self]
          simp
        · rw [mapGet_mapInsert_ne _ _ hcc, mapGet_mapInsert_ne _ _ hcc]
          exact h2 cc

/-- C1 (amended): when every row carries `col`, `less_than(col, num)` returns
the table with the same schema whose rows are exactly those holding a
non-null integer strictly below `num` (nulls and wrong-typed values
excluded), a subset of the original rows.  (The original claim also covered
rows from which `col` is absent; those make the call abort, see
`less_than_absent_cex`.) -/
theorem less_than_spec (t : Table) (col : String) (num : Int)
    (h : ∀ d ∈ t.data, (mapGet col d).isSome) :
    t.less_than col num = some { t with data := t.data.filter (ltPred col num) } ∧
      ∀ d ∈ t.data.filter (ltPred col num), d ∈ t.data := by
  constructor
  · unfold Table.less_than
    rw [ltRows_eq_filter col num t.data h]
    rfl
  · intro d hd
    exact List.mem_of_mem_filter hd

/-- C1 counterexample: with `x` in the schema and one row lacking `x`,
`less_than` aborts (indexing `d[col]` on a missing key) instead of excluding
the row as the claim states. -/
theorem less_than_absent_cex :
    (mapGet "x" exRowless.column).isSome ∧ ([] : Row) ∈ exRowless.data ∧
      mapGet "x" ([] : Row) = none ∧ exRowless.less_than "x" 0 = none := by decide

/-- C1 witness: `less_than_spec` applied to a concrete table whose rows all
carry the filtered column. -/
theorem less_than_spec_witness :
    exT1.less_than "x" 5 = some { exT1 with data := exT1.data.filter (ltPred "x" 5) } ∧
      ∀ d ∈ exT1.data.filter (ltPred "x" 5), d ∈ exT1.data :=
  less_than_spec exT1 "x" 5 (by decide)

/-- C2: the LIKE matcher satisfies: empty text matches exactly the empty
token list; a trailing `%` token matches any non-empty text; a `%` token
followed by further tokens succeeds exactly when the rest of the pattern
matches the suffix at some offset `i` with `1 ≤ i ≤ length − 1` (the
zero-length and full-length splits excluded). -/
theorem like_matcher_spec :
    (∀ p : List LikeType, likeMatch p [] = true ↔ p = []) ∧
    (∀ (c : Char) (ts : List Char), likeMatch [LikeType.percent] (c :: ts) = true) ∧
    (∀ (ps : List LikeType) (c : Char) (ts : List Char), ps ≠ [] →
      (likeMatch (LikeType.percent :: ps) (c :: ts) = true ↔
        ∃ i, 1 ≤ i ∧ i ≤ (c :: ts).length - 1 ∧ likeMatch ps ((c :: ts).drop i) = true)) := by
  refine ⟨?_, ?_, ?_⟩
  · intro p
    cases p with
    | nil => simp [likeMatch]
    | cons tok ps => simp [likeMatch]
  · intro c ts
    simp [likeMatch]
  · intro ps c ts hps
    have hpe : ps.isEmpty = false := by
      cases ps
      · exact absurd rfl hps
      · rfl
    rw [likeMatch, hpe]
    simp only [Bool.false_or]
    rw [List.any_eq_true]
    have hlen : (c :: ts).length - 1 = ts.length := by simp
    constructor
    · rintro ⟨i, hi, hlike⟩
      rw [List.mem_range'_1] at hi
      refine ⟨i, hi.1, ?_, hlike⟩
      rw [hlen] at hi ⊢
      omega
    · rintro ⟨i, h1, h2, hlike⟩
      refine ⟨i, ?_, hlike⟩
      rw [List.mem_range'_1]
      refine ⟨h1, ?_⟩
      rw [hlen] at h2 ⊢
      omega

/-- C2 witness: the `%`-split equivalence at a concrete pattern and text. -/
theorem like_matcher_spec_witness :
    likeMatch [LikeType.percent, LikeType.str ['s']] ['f', 'i', 'g', 's'] = true ↔
      ∃ i, 1 ≤ i ∧ i ≤ (['f', 'i', 'g', 's'] : List Char).length - 1 ∧
        likeMatch [LikeType.str ['s']] ((['f', 'i', 'g', 's'] : List Char).drop i) = true :=
  like_matcher_spec.2.2 [LikeType.str ['s']] 'f' ['i', 'g', 's'] (by decide)

/-- C4 (amended): `select` keeps the name, rows and width cache, its column
map is the requested list restricted to names present in the source schema,
and no error is raised; but `order` is set to the *full* requested list,
including names not in the source schema (they are dropped only from the
column map, not from the order). -/
theorem select_spec (t : Table) (cols : List String) :
    (t.select cols).name = t.name ∧ (t.select cols).order = cols ∧
      (t.select cols).max_lens = t.max_lens ∧ (t.select cols).data = t.data ∧
      ∀ c, mapGet c (t.select cols).column =
        if c ∈ cols ∧ (mapGet c t.column).isSome then mapGet c t.column else none := by
  refine ⟨rfl, rfl, rfl, rfl, ?_⟩
  intro c
  show mapGet c (selectLoop t.column cols []) = _
  rw [selectLoop_get t.column cols [] c]
  rfl

/-- C4 counterexample: a requested name absent from the source schema stays
in the result's `order` (the claim says the schema order is restricted to
present names, which here would be `["a"]`). -/
theorem select_order_cex :
    ((Table.new "t" [("a", Ty.int none)]).select ["a", "zz"]).order = ["a", "zz"] ∧
      mapGet "zz" ((Table.new "t" [("a", Ty.int none)]).select ["a", "zz"]).column = none ∧
      (["a", "zz"] : List String) ≠ ["a"] := by decide

/-- C5 (amended): `select` is total by construction; `less_than` and `like`
are total on tables whose rows all carry the named column; `display` is
total when every name in `order` has a cached width.  (The original claim's
totality on rows lacking the named column fails, see `like_absent_cex`.) -/
theorem total_ops_spec :
    (∀ (t : Table) (col : String) (num : Int),
      (∀ d ∈ t.data, (mapGet col d).isSome) → (t.less_than col num).isSome) ∧
    (∀ (t : Table) (col pat : String),
      (∀ d ∈ t.data, (mapGet col d).isSome) → (t.like col pat).isSome) ∧
    (∀ t : Table, (∀ c ∈ t.order, (mapGet c t.max_lens).isSome) → t.display.isSome) := by
  refine ⟨?_, ?_, ?_⟩
  · intro t col num h
    unfold Table.less_than
    rw [ltRows_eq_filter col num t.data h]
    rfl
  · intro t col pat h
    unfold Table.like
    rw [likeRows_eq_filter col (tokenize pat.data) t.data h]
    rfl
  · intro t h
    unfold Table.display
    rcases Option.isSome_iff_exists.1
      (perCol_isSome t (fun _ w => "-" ++ padL "-" '-' w ++ "-+") t.order h) with ⟨l, hl⟩
    rcases Option.isSome_iff_exists.1
      (perCol_isSome t (fun c w => " " ++ padC c w ++ " |") t.order h) with ⟨hdr, hhdr⟩
    rcases Option.isSome_iff_exists.1 (rowsStr_isSome t h t.data) with ⟨rs, hrs⟩
    rw [hl, hhdr, hrs]
    rfl

/-- C5 counterexample: `like` on a schema-consistent table aborts when a row
lacks the named column, so the operation is not total as claimed. -/
theorem like_absent_cex :
    (mapGet "x" exRowless.column).isSome ∧ ([] : Row) ∈ exRowless.data ∧
      exRowless.like "x" "a" = none := by decide

/-- C5 witness: the totality statements at a concrete table. -/
theorem total_ops_spec_witness :
    (exT1.less_than "x" 0).isSome ∧ (exT1.like "x" "a").isSome ∧ exT1.display.isSome :=
  ⟨total_ops_spec.1 exT1 "x" 0 (by decide), total_ops_spec.2.1 exT1 "x" "a" (by decide),
    total_ops_spec.2.2 exT1 (by decide)⟩

/-- C9: when the key is missing from either schema, `left_join` is a no-op
returning the left table unchanged and raising no error. -/
theorem left_join_missing_key_noop (a b : Table) (key : String)
    (h : mapGet key b.column = none ∨ mapGet key a.column = none) :
    a.left_join b key = some a := by
  unfold Table.left_join
  have hcond : (mapGet key b.column).isNone = true ∨ (mapGet key a.column).isNone = true := by
    rcases h with h | h
    · exact Or.inl (by rw [h]; rfl)
    · exact Or.inr (by rw [h]; rfl)
  rw [if_pos hcond]

/-- C9 witness: joining on a key absent from the right schema returns the
left table unchanged. -/
theorem left_join_missing_key_noop_witness :
    Table.left_join exJL2 exJR "a" = some exJL2 :=
  left_join_missing_key_noop exJL2 exJR "a" (Or.inl (by decide))

theorem join_cond_false (a b : Table) (key : String)
    (h1 : (mapGet key b.column).isSome) (h2 : (mapGet key a.column).isSome) :
    ¬((mapGet key b.column).isNone = true ∨ (mapGet key a.column).isNone = true) := by
  rintro (hc | hc)
  · rw [Option.isNone_iff_eq_none] at hc
    rw [hc] at h1
    simp at h1
  · rw [Option.isNone_iff_eq_none] at hc
    rw [hc] at h2
    simp at h2

theorem extend_key_not_mem (a b : Table) (key : String) (t0 : Table) (ocs : List String)
    (h2 : (mapGet key a.column).isSome)
    (hext : extendLoop b b.order a [] = some (t0, ocs)) :
    key ∉ ocs ∧ ∀ oc ∈ ocs, mapGet oc a.column = none := by
  obtain ⟨_, _, _, hc', _, _⟩ := extendLoop_col b b.order a [] t0 ocs hext
  constructor
  · intro hk
    rcases hc' key hk with hk1 | ⟨hnone, _, _⟩
    · simp at hk1
    · rw [hnone] at h2
      simp at h2
  · intro oc hoc
    rcases hc' oc hoc with hk1 | ⟨hnone, _, _⟩
    · simp at hk1
    · exact hnone

/-- C3 (amended): with the key in both schemas and a spectator-free run
(`left_join` returned a table), each result row is the corresponding left
row merged as follows: a right row participates exactly when the two rows'
`key` entries agree *as options* — both present with equal tagged values
(two nulls of the same variant equal), or the key absent from both rows;
when several right rows match, every imported column takes the last
matching right row's value, other keys keep the left row's values; with no
match the row is returned untouched (so imported columns, absent from the
left schema and hence from a consistent left row, read as null).  (The
original claim required both rows to *have* the key column; the both-absent
case also merges, see `left_join_merge_cex`.) -/
theorem left_join_merge_spec (a b : Table) (key : String) (t' : Table)
    (h1 : (mapGet key b.column).isSome) (h2 : (mapGet key a.column).isSome)
    (hj : a.left_join b key = some t') :
    ∃ t0 ocs, extendLoop b b.order a [] = some (t0, ocs) ∧ key ∉ ocs ∧
      (∀ oc ∈ ocs, mapGet oc a.column = none) ∧
      List.Forall₂ (mergedRowSpec key ocs b.data) a.data t'.data := by
  unfold Table.left_join at hj
  rw [if_neg (join_cond_false a b key h1 h2)] at hj
  cases hext : extendLoop b b.order a [] with
  | none => rw [hext] at hj; cases hj
  | some p =>
      rw [hext, Option.some_bind] at hj
      cases hrows : mapRows (joinRow key p.2 b.data) p.1.data with
      | none => rw [hrows] at hj; cases hj
      | some rows =>
          rw [hrows] at hj
          simp only [Option.map_some'] at hj
          obtain ⟨⟨hname, hdata⟩, _, _, _, _, _⟩ := extendLoop_col b b.order a [] p.1 p.2 hext
          obtain ⟨hkn, hocs_none⟩ := extend_key_not_mem a b key p.1 p.2 h2 hext
          refine ⟨p.1, p.2, rfl, hkn, hocs_none, ?_⟩
          have hall := mapRows_forall2 (joinRow key p.2 b.data) p.1.data rows hrows
          rw [hdata] at hall
          cases hj
          exact List.Forall₂.imp
            (fun d r hdr => joinRow_spec key p.2 hkn b.data d r hdr) hall

/-- C3 counterexample: both rows lack the key column entirely, yet the right
row's new column is still merged into the left row (None == None), refuting
"merged iff both rows have the key column and their values are equal". -/
theorem left_join_merge_cex :
    mapGet "k" ([] : Row) = none ∧
      mapGet "k" ([("c", Ty.int (some 7))] : Row) = none ∧
      (exJL.left_join exJR "k").map (fun t => t.data) = some [[("c", Ty.int (some 7))]] := by
  decide

/-- C3 witness: the merge semantics at a concrete join where two right rows
match the first left row (the later one wins) and none matches the second. -/
theorem left_join_merge_spec_witness : ∃ t0 ocs,
    extendLoop exJR2 exJR2.order exJL2 [] = some (t0, ocs) ∧ "k" ∉ ocs ∧
      (∀ oc ∈ ocs, mapGet oc exJL2.column = none) ∧
      List.Forall₂ (mergedRowSpec "k" ocs exJR2.data) exJL2.data
        ((exJL2.left_join exJR2 "k").getD exJL2).data :=
  left_join_merge_spec exJL2 exJR2 "k" ((exJL2.left_join exJR2 "k").getD exJL2)
    (by decide) (by decide) (by decide)

/-- C10: `left_join` is not total on schema-consistent inputs: if a left row
matches a right row (equal key options, including key absent from both) and
that matching right row lacks one of the imported columns, the join aborts
(`od.get(oc).unwrap()`), returning no table. -/
theorem left_join_abort_on_missing_import (a b : Table) (key : String)
    (t0 : Table) (ocs : List String) (d od : Row) (oc : String)
    (h1 : (mapGet key b.column).isSome) (h2 : (mapGet key a.column).isSome)
    (hext : extendLoop b b.order a [] = some (t0, ocs))
    (hd : d ∈ a.data) (hod : od ∈ b.data)
    (hkey : mapGet key d = mapGet key od)
    (hoc : oc ∈ ocs) (hmiss : mapGet oc od = none) :
    a.left_join b key = none := by
  unfold Table.left_join
  rw [if_neg (join_cond_false a b key h1 h2), hext, Option.some_bind]
  obtain ⟨⟨_, hdata⟩, _, _, _, _, _⟩ := extendLoop_col b b.order a [] t0 ocs hext
  have hkn := (extend_key_not_mem a b key t0 ocs h2 hext).1
  have hjr : joinRow key ocs b.data d = none :=
    joinRow_none key ocs oc hkn hoc b.data d od hod hkey hmiss
  have hmr : mapRows (joinRow key ocs b.data) t0.data = none := by
    rw [hdata]
    exact mapRows_none _ a.data d hd hjr
  rw [hmr]
  rfl

/-- C10 witness: a concrete join where the matching right row lacks the
imported column `c`, so the join aborts. -/
theorem left_join_abort_witness : exJL3.left_join exJR3 "k" = none :=
  left_join_abort_on_missing_import exJL3 exJR3 "k" exJT0 ["c"]
    [("k", Ty.int (some 1))] [("k", Ty.int (some 1))] "c"
    (by decide) (by decide) (by decide) (by decide) (by decide) (by decide)
    (by decide) (by decide)

/-- C6 (amended): the row-keys-within-schema invariant holds for a new
table and is preserved by `insert`, `less_than`, `like` and `left_join`;
it is *not* preserved by `select`, which shrinks the column map while the
rows keep all their fields (see `select_breaks_invariant_cex`). -/
theorem invariant_preservation :
    (∀ (name : String) (cols : List (String × Ty)), consistentRows (Table.new name cols)) ∧
    (∀ (t : Table) (row : List (String × Ty)) (t' : Table),
      consistentRows t → t.insert row = some t' → consistentRows t') ∧
    (∀ (t : Table) (col : String) (num : Int) (t' : Table),
      consistentRows t → t.less_than col num = some t' → consistentRows t') ∧
    (∀ (t : Table) (col pat : String) (t' : Table),
      consistentRows t → t.like col pat = some t' → consistentRows t') ∧
    (∀ (a b : Table) (key : String) (t' : Table),
      consistentRows a → a.left_join b key = some t' → consistentRows t') := by
  refine ⟨?_, ?_, ?_, ?_, ?_⟩
  · intro name cols d hd
    simp [Table.new] at hd
  · intro t row t' hcons hins
    unfold Table.insert at hins
    cases hloop : insertLoop t.column t.max_lens [] row with
    | none => rw [hloop] at hins; cases hins
    | some p =>
        rw [hloop] at hins
        simp only [Option.map_some'] at hins
        cases hins
        obtain ⟨_, _, _, hrow⟩ := insertLoop_spec t.column row t.max_lens [] p.1 p.2 hloop
        intro d hd pp hpp
        rcases List.mem_append.1 hd with hd | hd
        · exact hcons d hd pp hpp
        · have hdp : d = p.2 := by simpa using hd
          subst hdp
          rcases hrow pp hpp with h0 | ⟨hsome, _⟩
          · simp at h0
          · exact hsome
  · intro t col num t' hcons hlt
    unfold Table.less_than at hlt
    cases hloop : ltRows col num t.data with
    | none => rw [hloop] at hlt; cases hlt
    | some rs =>
        rw [hloop] at hlt
        simp only [Option.map_some'] at hlt
        cases hlt
        intro d hd pp hpp
        exact hcons d (ltRows_subset col num t.data rs hloop d hd) pp hpp
  · intro t col pat t' hcons hlk
    unfold Table.like at hlk
    cases hloop : likeRows col (tokenize pat.data) t.data with
    | none => rw [hloop] at hlk; cases hlk
    | some rs =>
        rw [hloop] at hlk
        simp only [Option.map_some'] at hlk
        cases hlk
        intro d hd pp hpp
        exact hcons d (likeRows_subset col (tokenize pat.data) t.data rs hloop d hd) pp hpp
  · intro a b key t' hcons hj
    unfold Table.left_join at hj
    by_cases hcond : (mapGet key b.column).isNone = true ∨ (mapGet key a.column).isNone = true
    · rw [if_pos hcond] at hj
      cases hj
      exact hcons
    · rw [if_neg hcond] at hj
      cases hext : extendLoop b b.order a [] with
      | none => rw [hext] at hj; cases hj
      | some p =>
          rw [hext, Option.some_bind] at hj
          cases hrows : mapRows (joinRow key p.2 b.data) p.1.data with
          | none => rw [hrows] at hj; cases hj
          | some rows =>
              rw [hrows] at hj
              simp only [Option.map_some'] at hj
              obtain ⟨⟨_, hdata⟩, _, hb, _, _, hf⟩ :=
                extendLoop_col b b.order a [] p.1 p.2 hext
              have hocs_some : ∀ x ∈ p.2, (mapGet x p.1.column).isSome :=
                hf (fun x hx => by simp at hx)
              cases hj
              intro r hr pp hpp
              rcases mapRows_mem_source _ p.1.data rows hrows r hr with ⟨d, hdmem, hjr⟩
              rw [hdata] at hdmem
              rcases joinRow_mem key p.2 b.data d r hjr pp hpp with hp1 | ⟨hp2, _⟩
              · have hsome := hcons d hdmem pp hp1
                show (mapGet pp.1 p.1.column).isSome = true
                rw [hb pp.1 hsome]
                exact hsome
              · exact hocs_some pp.1 hp2

/-- C6 counterexample: a consistent table stops being consistent after
`select`, because the rows keep fields that the narrowed schema no longer
lists. -/
theorem select_breaks_invariant_cex :
    consistentRows exSel ∧ ¬ consistentRows (exSel.select ["a"]) := by decide

/-- C6 witness: insert-preservation at a concrete table. -/
theorem invariant_preservation_witness :
    consistentRows ((exIns.insert [("s", Ty.text (some "xyz"))]).getD exIns) :=
  invariant_preservation.2.1 exIns [("s", Ty.text (some "xyz"))]
    ((exIns.insert [("s", Ty.text (some "xyz"))]).getD exIns) (by decide) (by decide)

/-- C7 (amended): the width computed by `insert` is `i32_len` for non-null
integers — which agrees with "decimal digit count plus sign if negative"
for every non-zero integer above `-2^31`, but computes 0 (not 1) for the
integer 0 — character length for non-null text, and 4 for null; the cached
max width is raised exactly when the computed width exceeds it, and the row
is appended.  (The original claim's digit-count formula fails at 0, see
`insert_width_cex`.) -/
theorem insert_width_spec :
    (∀ n : Int, -(2 ^ 31) < n → n ≠ 0 → valLen (Ty.int (some n)) = some (specIntWidth n)) ∧
    (valLen (Ty.int (some 0)) = some 0 ∧ specIntWidth 0 = 1) ∧
    (∀ s : String, valLen (Ty.text (some s)) = some s.length) ∧
    valLen (Ty.int none) = some 4 ∧ valLen (Ty.text none) = some 4 ∧
    (∀ (t : Table) (col : String) (v : Ty) (cur len : Nat),
      (mapGet col t.column).isSome → mapGet col t.max_lens = some cur →
      valLen v = some len →
      t.insert [(col, v)] =
        some { t with
          max_lens := if cur < len then mapInsert col len t.max_lens else t.max_lens,
          data := t.data ++ [[(col, v)]] }) := by
  refine ⟨?_, ⟨?_, ?_⟩, fun s => rfl, rfl, rfl, ?_⟩
  · intro n h1 h2
    show i32_len n = _
    exact i32_len_eq_spec n h1 h2
  · show i32_len 0 = some 0
    rw [i32_len, if_neg (by norm_num : ¬ (0 : Int) < 0)]
    show some (natLen 0) = some 0
    rw [natLen]
    simp
  · rw [specIntWidth, if_neg (by norm_num : ¬ (0 : Int) < 0)]
    show 0 + decDigits 0 = 1
    rw [decDigits]
    simp
  · intro t col v cur len hcol hcur hlen
    unfold Table.insert
    rw [insertLoop, if_pos hcol,
      if_neg (by simp [mapGet] : ¬((mapGet col ([] : Row)).isSome = true)),
      hlen, hcur]
    simp only [insertLoop, Option.map_some']
    rfl

/-- C7 counterexample: inserting the integer 0 computes width 0, not the
display digit count 1 that the claim's formula gives; into a column whose
cached width is 0 the cache is therefore not raised. -/
theorem insert_width_cex :
    valLen (Ty.int (some 0)) = some 0 ∧ specIntWidth 0 = 1 ∧
      ((Table.new "" [("", Ty.int none)]).insert [("", Ty.int (some 0))]).map
        (fun t => mapGet "" t.max_lens) = some (some 0) := by
  have h0 : valLen (Ty.int (some 0)) = some 0 := by
    show i32_len 0 = some 0
    rw [i32_len, if_neg (by norm_num : ¬ (0 : Int) < 0)]
    show some (natLen 0) = some 0
    rw [natLen]
    simp
  refine ⟨h0, ?_, ?_⟩
  · rw [specIntWidth, if_neg (by norm_num : ¬ (0 : Int) < 0)]
    show 0 + decDigits 0 = 1
    rw [decDigits]
    simp
  · have hins : (Table.new "" [("", Ty.int none)]).insert [("", Ty.int (some 0))] =
        some { (Table.new "" [("", Ty.int none)]) with
          max_lens := if 0 < 0 then
              mapInsert "" 0 (Table.new "" [("", Ty.int none)]).max_lens
            else (Table.new "" [("", Ty.int none)]).max_lens,
          data := (Table.new "" [("", Ty.int none)]).data ++ [[("", Ty.int (some 0))]] } := by
      unfold Table.insert
      rw [insertLoop, if_pos (by decide), if_neg (by simp [mapGet]), h0,
        (by decide : mapGet "" (Table.new "" [("", Ty.int none)]).max_lens = some 0)]
      simp only [insertLoop, Option.map_some']
      rfl
    rw [hins]
    decide

/-- C7 witness: the digit-count agreement at a non-zero negative integer and
the cache-raise-and-append behaviour at a concrete single-value insert. -/
theorem insert_width_spec_witness :
    valLen (Ty.int (some (-507))) = some (specIntWidth (-507)) ∧
      exIns.insert [("s", Ty.text (some "wxyz"))] =
        some { exIns with
          max_lens := if 2 < 4 then mapInsert "s" 4 exIns.max_lens else exIns.max_lens,
          data := exIns.data ++ [[("s", Ty.text (some "wxyz"))]] } :=
  ⟨insert_width_spec.1 (-507) (by norm_num) (by norm_num),
    insert_width_spec.2.2.2.2.2 exIns "s" (Ty.text (some "wxyz")) 2 4
      (by decide) (by decide) (by decide)⟩

/-- C8 (amended): through construction, inserts and joins, every column's
cached width stays at least the column-name length and at least the
insert-computed width (`valLen`) of every value stored under that column in
a row.  Cells that read as null only because the column is absent from the
row do not raise the cache (see `width_absent_null_cex`), and a stored
integer 0 contributes width 0, so the original claim's bound by the
display width of every *visible* value (with 4 for every visible null)
does not hold. -/
theorem width_invariant :
    (∀ (name : String) (cols : List (String × Ty)),
      wfT (Table.new name cols) ∧ widthOK (Table.new name cols)) ∧
    (∀ (t : Table) (row : List (String × Ty)) (t' : Table),
      wfT t → widthOK t → t.insert row = some t' → wfT t' ∧ widthOK t') ∧
    (∀ (a b : Table) (key : String) (t' : Table),
      wfT a → widthOK a → wfT b → widthOK b →
      a.left_join b key = some t' → wfT t' ∧ widthOK t') := by
  refine ⟨?_, ?_, ?_⟩
  · intro name cols
    obtain ⟨hml, hdom⟩ :=
      newLoop_spec cols [] [] [] (fun p hp => by simp at hp) (fun c => Iff.rfl)
    refine ⟨⟨?_, ?_⟩, ⟨?_, ?_⟩⟩
    · intro d hd
      simp [Table.new] at hd
    · rw [lensDom_iff]
      exact hdom
    · intro q hq
      rw [hml q hq]
    · intro d hd
      simp [Table.new] at hd
  · intro t row t' hwf hwok hins
    unfold Table.insert at hins
    cases hloop : insertLoop t.column t.max_lens [] row with
    | none => rw [hloop] at hins; cases hins
    | some p =>
        rw [hloop] at hins
        simp only [Option.map_some'] at hins
        cases hins
        obtain ⟨hdom, hle, hmem, hrow⟩ := insertLoop_spec t.column row t.max_lens [] p.1 p.2 hloop
        obtain ⟨hcons, hld⟩ := hwf
        obtain ⟨hname, hval⟩ := hwok
        rw [lensDom_iff] at hld
        refine ⟨⟨?_, ?_⟩, ⟨?_, ?_⟩⟩
        · intro d hd pp hpp
          rcases List.mem_append.1 hd with hd | hd
          · exact hcons d hd pp hpp
          · have hdp : d = p.2 := by simpa using hd
            subst hdp
            rcases hrow pp hpp with h0 | ⟨hsome, _⟩
            · simp at h0
            · exact hsome
        · rw [lensDom_iff]
          intro c
          exact (hld c).trans (hdom c)
        · intro q hq
          rcases hmem q hq with hq1 | ⟨cur, hcur, hle1⟩
          · exact hname q hq1
          · exact le_trans (hname (q.1, cur) (mapGet_eq_some_mem hcur)) hle1
        · intro d hd pp hpp w hw len hlen
          rw [Option.mem_def] at hw hlen
          rcases List.mem_append.1 hd with hd | hd
          · rcases hle pp.1 w hw with ⟨w0, hw0, hle0⟩
            exact le_trans
              (hval d hd pp hpp w0 (Option.mem_def.2 hw0) len (Option.mem_def.2 hlen)) hle0
          · have hdp : d = p.2 := by simpa using hd
            subst hdp
            rcases hrow pp hpp with h0 | ⟨_, len2, hlen2, hbound⟩
            · simp at h0
            · have heq : len = len2 := Option.some.inj (hlen.symm.trans hlen2)
              rw [heq]
              exact hbound w hw
  · intro a b key t' hwfa hwoka hwfb hwokb hj
    unfold Table.left_join at hj
    by_cases hcond : (mapGet key b.column).isNone = true ∨ (mapGet key a.column).isNone = true
    · rw [if_pos hcond] at hj
      cases hj
      exact ⟨hwfa, hwoka⟩
    · rw [if_neg hcond] at hj
      cases hext : extendLoop b b.order a [] with
      | none => rw [hext] at hj; cases hj
      | some p =>
          rw [hext, Option.some_bind] at hj
          cases hrows : mapRows (joinRow key p.2 b.data) p.1.data with
          | none => rw [hrows] at hj; cases hj
          | some rows =>
              rw [hrows] at hj
              simp only [Option.map_some'] at hj
              cases hj
              obtain ⟨hconsa, hlda⟩ := hwfa
              obtain ⟨hnamea, hvala⟩ := hwoka
              obtain ⟨hconsb, hldb⟩ := hwfb
              obtain ⟨hnameb, hvalb⟩ := hwokb
              rw [lensDom_iff] at hlda
              obtain ⟨⟨hname0, hdata0⟩, _, hbcol, hc', hd', hf⟩ :=
                extendLoop_col b b.order a [] p.1 p.2 hext
              obtain ⟨hlensA, hlensB, hlensDom, hlensQ⟩ :=
                extendLoop_lens b b.order a [] p.1 p.2 hext hlda
              have hocs_some : ∀ x ∈ p.2, (mapGet x p.1.column).isSome :=
                hf (fun x hx => by simp at hx)
              refine ⟨⟨?_, ?_⟩, ⟨?_, ?_⟩⟩
              · intro r hr pp hpp
                rcases mapRows_mem_source _ p.1.data rows hrows r hr with ⟨d, hdmem, hjr⟩
                rw [hdata0] at hdmem
                rcases joinRow_mem key p.2 b.data d r hjr pp hpp with hp1 | ⟨hp2, _⟩
                · have hsome := hconsa d hdmem pp hp1
                  show (mapGet pp.1 p.1.column).isSome = true
                  rw [hbcol pp.1 hsome]
                  exact hsome
                · exact hocs_some pp.1 hp2
              · rw [lensDom_iff]
                exact hlensDom
              · intro q hq
                rcases hlensQ q hq with hq1 | hq1
                · exact hnamea q hq1
                · exact hnameb (q.1, q.2) (mapGet_eq_some_mem hq1)
              · intro r hr pp hpp w hw len hlen
                rw [Option.mem_def] at hw hlen
                rcases mapRows_mem_source _ p.1.data rows hrows r hr with ⟨d, hdmem, hjr⟩
                rw [hdata0] at hdmem
                rcases joinRow_mem key p.2 b.data d r hjr pp hpp with hp1 | ⟨hp2, od, hodmem, hodval⟩
                · have hsome := hconsa d hdmem pp hp1
                  have hpres := hlensA pp.1 hsome
                  rw [hpres] at hw
                  exact hvala d hdmem pp hp1 w (Option.mem_def.2 hw) len (Option.mem_def.2 hlen)
                · rcases hlensB pp.1 hp2 with h1 | h1
                  · simp at h1
                  · rw [h1] at hw
                    exact hvalb od hodmem (pp.1, pp.2) (mapGet_eq_some_mem hodval) w
                      (Option.mem_def.2 hw) len (Option.mem_def.2 hlen)

/-- C8 counterexample: a cell that reads as null because the column is
absent from the row leaves the cached width (here 2, the column-name
length) below the 4 the claim requires for visible nulls. -/
theorem width_absent_null_cex :
    ((Table.new "t" [("id", Ty.int none)]).insert []).map
        (fun t => mapGet "id" t.max_lens) = some (some 2) ∧
      ((Table.new "t" [("id", Ty.int none)]).insert []).map (fun t => t.data) =
        some [[]] ∧
      cellStr [] "id" 2 = "NULL" ∧ ¬ (4 ≤ 2) := by decide

/-- C8 witness: the preservation statements at a concrete construction and
insertion. -/
theorem width_invariant_witness :
    (wfT (Table.new "w" [("s", Ty.text none)]) ∧
      widthOK (Table.new "w" [("s", Ty.text none)])) ∧
      (wfT ((exIns.insert [("s", Ty.text (some "xyz"))]).getD exIns) ∧
        widthOK ((exIns.insert [("s", Ty.text (some "xyz"))]).getD exIns)) :=
  ⟨width_invariant.1 "w" [("s", Ty.text none)],
    width_invariant.2.1 exIns [("s", Ty.text (some "xyz"))]
      ((exIns.insert [("s", Ty.text (some "xyz"))]).getD exIns)
      (by decide) (by decide) (by decide)⟩
